import Mathlib

/-
  Verification of the ruby-version-checker release-validation and
  latest-version-selection engine (src/main.rs), as a shallow embedding.

  Modelling conventions:
  * Rust u64 becomes Nat; the semver parser enforces the u64 range bound
    (values below 2^64) exactly where the semver crate does.
  * semver::Version becomes the structure SemVerVersion with prerelease and
    build metadata kept as raw strings (empty string = absent), as in the
    semver crate.
  * A Rust panic (the .unwrap() on strip_prefix in parse_semver_version)
    is modelled explicitly by the PanicOr / ParseOutcome types.
  * The csv crate layer (tab delimiter, header row, per-record deserialize
    errors) is modelled by newline/tab splitting plus header-name lookup;
    CSV quoting and carriage returns are not modelled (the feed uses
    neither), and empty lines are ignored as the csv reader does.
  * Rust's Vec::sort (a stable sort) is modelled by the stable insertion
    sort stableSort; stable sorts agree on all inputs for a total preorder.
-/

set_option maxHeartbeats 1000000

universe u v

namespace RubyCheck

variable {α : Type u} {β : Type v}

/-- Model of semver::Version: major.minor.patch plus prerelease and build
metadata strings (empty when absent). -/
structure SemVerVersion where
  major : Nat
  minor : Nat
  patch : Nat
  pre : String
  build : String
deriving DecidableEq

/-- Structural equality of versions, as derived by the semver crate. -/
def svBeq (a b : SemVerVersion) : Bool :=
  a.major == b.major && a.minor == b.minor && a.patch == b.patch
    && a.pre == b.pre && a.build == b.build

instance : BEq SemVerVersion := BEq.mk svBeq

/-- Model of the Release struct: one row of the feed. -/
structure Release where
  version : SemVerVersion
  url : String
  sha256 : String
deriving DecidableEq

/-- Model of PartialEq for Release: equality is delegated to the version
field only (url and sha256 are ignored). -/
def releaseBEq (a b : Release) : Bool := a.version == b.version

/-- Outcome of a Rust computation that can panic. -/
inductive PanicOr (α : Type u) where
  | panicked : PanicOr α
  | value : α → PanicOr α
deriving DecidableEq

/-- Outcome of parse_data: a panic, an Err (never actually produced by the
code, but present in its Result signature), or Ok with the retained rows. -/
inductive ParseOutcome where
  | panicked : ParseOutcome
  | err : String → ParseOutcome
  | ok : List Release → ParseOutcome
deriving DecidableEq

/-- Split a character list at every occurrence of a separator, as Rust's
str::split does: the empty list yields one empty piece. -/
def splitOnChar (sep : Char) : List Char → List (List Char)
  | [] => [[]]
  | c :: cs =>
    if c = sep then [] :: splitOnChar sep cs
    else
      match splitOnChar sep cs with
      | [] => [[c]]
      | h :: t => (c :: h) :: t

/-- Join pieces with a separator; retraction of splitOnChar. -/
def joinChar (sep : Char) : List (List Char) → List Char
  | [] => []
  | [l] => l
  | l :: ls => l ++ sep :: joinChar sep ls

/-- Accumulate the numeric value of a digit run. -/
def digitsVal (ds : List Char) : Nat :=
  ds.foldl (fun n c => n * 10 + (c.toNat - 48)) 0

/-- Parse a leading numeric identifier as the semver crate does: at least
one digit, no leading zero, value within the u64 range; returns the value
and the remaining characters. -/
def parseNum (cs : List Char) : Option (Nat × List Char) :=
  match cs.takeWhile Char.isDigit, cs.dropWhile Char.isDigit with
  | [], _ => none
  | d :: ds, rest =>
    if d = '0' ∧ ds ≠ [] then none
    else if digitsVal (d :: ds) < 2 ^ 64 then some (digitsVal (d :: ds), rest)
    else none

/-- Characters allowed in prerelease/build identifiers: ASCII alphanumerics
and hyphen. -/
def isIdentChar (c : Char) : Bool := c.isAlpha || c.isDigit || c == '-'

/-- A numeric identifier must not have a leading zero. -/
def leadingZeroOk : List Char → Bool
  | '0' :: _ :: _ => false
  | _ => true

/-- Validity of one prerelease identifier, as in Prerelease::new. -/
def validPreIdent (l : List Char) : Bool :=
  !l.isEmpty && l.all isIdentChar && (!l.all Char.isDigit || leadingZeroOk l)

/-- Validity of one build identifier (leading zeros are allowed here). -/
def validBuildIdent (l : List Char) : Bool :=
  !l.isEmpty && l.all isIdentChar

/-- Validity of a whole prerelease string (dot-separated identifiers). -/
def validPre (cs : List Char) : Bool := (splitOnChar '.' cs).all validPreIdent

/-- Validity of a whole build-metadata string. -/
def validBuild (cs : List Char) : Bool := (splitOnChar '.' cs).all validBuildIdent

/-- Parse the part after major.minor.patch: nothing, a prerelease
introduced by a hyphen with optional build, or a build introduced by a
plus sign. -/
def semverTail (maj mino pat : Nat) : List Char → Option SemVerVersion
  | [] => some (SemVerVersion.mk maj mino pat "" "")
  | '-' :: r =>
    (let preChars := r.takeWhile (fun c => !(c == '+'))
     let rest := r.dropWhile (fun c => !(c == '+'))
     if validPre preChars then
       match rest with
       | [] => some (SemVerVersion.mk maj mino pat (String.mk preChars) "")
       | '+' :: b =>
         if validBuild b then
           some (SemVerVersion.mk maj mino pat (String.mk preChars) (String.mk b))
         else none
       | _ => none
     else none)
  | '+' :: b =>
    if validBuild b then some (SemVerVersion.mk maj mino pat "" (String.mk b))
    else none
  | _ => none

/-- Model of semver::Version::parse (str::parse on the stripped name). -/
def semverParse (cs : List Char) : Option SemVerVersion :=
  match parseNum cs with
  | some (maj, '.' :: r1) =>
    (match parseNum r1 with
     | some (mino, '.' :: r2) =>
       (match parseNum r2 with
        | some (pat, rest) => semverTail maj mino pat rest
        | none => none)
     | _ => none)
  | _ => none

/-- Model of parse_semver_version: strip_prefix of the literal prefix
followed by .unwrap() — a name without the prefix panics — and then the
semver parse, whose failure is a row-level error (value none). -/
def parse_semver_version (s : String) : PanicOr (Option SemVerVersion) :=
  if List.isPrefixOf ("ruby-").data s.data then
    PanicOr.value (semverParse (s.data.drop 5))
  else
    PanicOr.panicked

/-- Three-way comparison on Nat, as Rust's Ord on integers. -/
def natCmp (a b : Nat) : Ordering :=
  if a < b then Ordering.lt else if b < a then Ordering.gt else Ordering.eq

/-- Three-way comparison on characters by code point (byte order on the
ASCII identifiers this is applied to). -/
def charCmp (a b : Char) : Ordering := natCmp a.toNat b.toNat

/-- Lexicographic comparison of lists under a component comparison, with a
proper prefix ordered first; this is both Rust's str ordering and the
identifier-sequence loop of the semver crate. -/
def listLex (c : α → α → Ordering) : List α → List α → Ordering
  | [], [] => Ordering.eq
  | [], _ :: _ => Ordering.lt
  | _ :: _, [] => Ordering.gt
  | a :: as, b :: bs => (c a b).then (listLex c as bs)

/-- Comparison of single prerelease/build identifiers as in the semver
crate: numeric identifiers sort below alphanumeric ones; two numeric
identifiers compare by length then lexically; otherwise lexically. -/
def identCmp (a b : List Char) : Ordering :=
  match a.all Char.isDigit, b.all Char.isDigit with
  | true, true => (natCmp a.length b.length).then (listLex charCmp a b)
  | true, false => Ordering.lt
  | false, true => Ordering.gt
  | false, false => listLex charCmp a b

/-- Ord for Prerelease: empty (a real release) sorts above any prerelease;
otherwise dot-separated identifiers compare lexicographically. -/
def preCmp (a b : String) : Ordering :=
  if a.data.isEmpty then (if b.data.isEmpty then Ordering.eq else Ordering.gt)
  else if b.data.isEmpty then Ordering.lt
  else listLex identCmp (splitOnChar '.' a.data) (splitOnChar '.' b.data)

/-- Ord for BuildMetadata: empty sorts below any build metadata; otherwise
dot-separated identifiers compare lexicographically. -/
def buildCmp (a b : String) : Ordering :=
  if a.data.isEmpty then (if b.data.isEmpty then Ordering.eq else Ordering.lt)
  else if b.data.isEmpty then Ordering.gt
  else listLex identCmp (splitOnChar '.' a.data) (splitOnChar '.' b.data)

/-- Ord for semver::Version: major, then minor, then patch, then
prerelease, then build metadata. -/
def versionCmp (a b : SemVerVersion) : Ordering :=
  (natCmp a.major b.major).then
    ((natCmp a.minor b.minor).then
      ((natCmp a.patch b.patch).then
        ((preCmp a.pre b.pre).then (buildCmp a.build b.build))))

/-- Ord for Release: comparison is delegated to the version field only. -/
def releaseCmp (a b : Release) : Ordering := versionCmp a.version b.version

/-- The non-strict order induced by releaseCmp, used by Vec::sort. -/
def releaseLE (a b : Release) : Bool :=
  match releaseCmp a b with
  | Ordering.gt => false
  | _ => true

/-- Model of the regex character class: the dot matches anything except a
newline. -/
def noNewline (cs : List Char) : Bool := cs.all (fun c => !(c == '\n'))

/-- Whether the anchored-at-the-end regex matches starting exactly here:
the literal scheme prefix, then newline-free filler, then the literal
suffix at the end of the haystack. -/
def matchHere (s : List Char) : Bool :=
  List.isPrefixOf ("https://").data s && List.isSuffixOf (".tar.gz").data s
    && decide (15 ≤ s.length) && noNewline ((s.drop 8).take (s.length - 15))

/-- Whether the regex matches at some (not necessarily initial) position:
Regex::is_match searches the whole haystack. -/
def anySuffixMatch : List Char → Bool
  | [] => matchHere []
  | c :: cs => matchHere (c :: cs) || anySuffixMatch cs

/-- Model of has_tar_gz_url: is_match of https://.*\.tar\.gz anchored only
at the end of the haystack. -/
def has_tar_gz_url (u : String) : Bool := anySuffixMatch u.data

/-- The configured version range 0..99 (a Rust Range). -/
def VERSION_RANGE_START : Nat := 0

/-- Exclusive upper end of the configured version range. -/
def VERSION_RANGE_END : Nat := 99

/-- Range::contains for the configured range. -/
def versionRangeContains (n : Nat) : Bool :=
  VERSION_RANGE_START ≤ n && n < VERSION_RANGE_END

/-- The iteration order of the configured range (its start is 0). -/
def versionRangeList : List Nat := List.range VERSION_RANGE_END

/-- Model of is_regular_release. -/
def is_regular_release (v : SemVerVersion) : Bool :=
  v.major == 3 && versionRangeContains v.minor && versionRangeContains v.patch
    && v.pre.data.isEmpty

/-- Model of Release::valid. -/
def Release.valid (r : Release) : Bool :=
  is_regular_release r.version && has_tar_gz_url r.url

/-- Split one feed line at tab characters into fields. -/
def splitTab (s : String) : List String :=
  (splitOnChar '\t' s.data).map String.mk

/-- Split the feed into records: newline-separated, with empty lines
ignored as the csv reader ignores empty records. -/
def lines (s : String) : List String :=
  ((splitOnChar '\n' s.data).filter (fun l => !l.isEmpty)).map String.mk

/-- Look up the field under a named header column (first match). -/
def lookupField (hdr fields : List String) (key : String) : Option String :=
  ((hdr.zip fields).find? (fun p => p.fst == key)).map (fun p => p.snd)

/-- Deserialize one record against the header, as csv+serde do: a field
count differing from the header is a record-level error; then the name
column is parsed (panicking on a missing prefix); a missing column or an
unparsable version is a record-level error (value none). -/
def parseRow (hdr fields : List String) : PanicOr (Option Release) :=
  if fields.length ≠ hdr.length then PanicOr.value none
  else
    match lookupField hdr fields ("name") with
    | none => PanicOr.value none
    | some nameVal =>
      match parse_semver_version nameVal with
      | PanicOr.panicked => PanicOr.panicked
      | PanicOr.value none => PanicOr.value none
      | PanicOr.value (some v) =>
        match lookupField hdr fields ("url"), lookupField hdr fields ("sha256") with
        | some u, some sh => PanicOr.value (some (Release.mk v u sh))
        | _, _ => PanicOr.value none

/-- The deserialize loop of parse_data: record-level errors are skipped
with continue, successfully read records are kept when valid, and a panic
aborts everything. -/
def parse_rows (hdr : List String) : List (List String) → ParseOutcome
  | [] => ParseOutcome.ok []
  | row :: rest =>
    match parseRow hdr row with
    | PanicOr.panicked => ParseOutcome.panicked
    | PanicOr.value none => parse_rows hdr rest
    | PanicOr.value (some item) =>
      match parse_rows hdr rest with
      | ParseOutcome.ok result =>
        ParseOutcome.ok (if item.valid then item :: result else result)
      | other => other

/-- Model of parse_data: the first record is the header; with no records
at all the result is Ok with an empty list. -/
def parse_data (input : String) : ParseOutcome :=
  match lines input with
  | [] => ParseOutcome.ok []
  | hdr :: rows => parse_rows (splitTab hdr) (rows.map splitTab)

/-- Insert an element into a sorted list, before the first element it is
less than or equal to (so ties keep input order). -/
def insertOrdered (le : α → α → Bool) (a : α) : List α → List α
  | [] => [a]
  | b :: l => if le a b then a :: b :: l else b :: insertOrdered le a l

/-- Stable insertion sort, modelling Vec::sort (Rust's sort is stable, and
all stable sorts agree for a total preorder). -/
def stableSort (le : α → α → Bool) : List α → List α
  | [] => []
  | a :: l => insertOrdered le a (stableSort le l)

/-- Model of latest_versions: for each minor number of the configured
range in ascending order, keep the rows with that minor, sort them, and
take the last element when there is one. -/
def latest_versions (versions : List Release) : List Release :=
  versionRangeList.filterMap (fun number =>
    (stableSort releaseLE (versions.filter (fun r => r.version.minor == number))).getLast?)

/-! Basic facts about Ordering.then and Ordering.swap. -/

theorem then_eq_eq : ∀ o₁ o₂ : Ordering,
    o₁.then o₂ = Ordering.eq ↔ o₁ = Ordering.eq ∧ o₂ = Ordering.eq := by
  intro o₁ o₂; cases o₁ <;> cases o₂ <;> decide

theorem then_eq_lt : ∀ o₁ o₂ : Ordering,
    o₁.then o₂ = Ordering.lt ↔ o₁ = Ordering.lt ∨ (o₁ = Ordering.eq ∧ o₂ = Ordering.lt) := by
  intro o₁ o₂; cases o₁ <;> cases o₂ <;> decide

theorem then_eq_gt : ∀ o₁ o₂ : Ordering,
    o₁.then o₂ = Ordering.gt ↔ o₁ = Ordering.gt ∨ (o₁ = Ordering.eq ∧ o₂ = Ordering.gt) := by
  intro o₁ o₂; cases o₁ <;> cases o₂ <;> decide

theorem swap_then : ∀ o₁ o₂ : Ordering, (o₁.then o₂).swap = o₁.swap.then o₂.swap := by
  intro o₁ o₂; cases o₁ <;> cases o₂ <;> decide

theorem swap_eq_lt : ∀ o : Ordering, o.swap = Ordering.lt ↔ o = Ordering.gt := by
  intro o; cases o <;> decide

theorem swap_eq_eq : ∀ o : Ordering, o.swap = Ordering.eq ↔ o = Ordering.eq := by
  intro o; cases o <;> decide

/-- A lawful three-way comparison: equality reflects structural equality,
comparing in the opposite direction swaps the outcome, and strict
comparison is transitive.  Together these make the induced non-strict
relation a total preorder. -/
structure LawfulCmp (c : α → α → Ordering) : Prop where
  eq_iff : ∀ a b, c a b = Ordering.eq ↔ a = b
  symm : ∀ a b, c b a = (c a b).swap
  lt_trans : ∀ a b d, c a b = Ordering.lt → c b d = Ordering.lt → c a d = Ordering.lt

theorem LawfulCmp.refl {c : α → α → Ordering} (h : LawfulCmp c) (a : α) :
    c a a = Ordering.eq := (h.eq_iff a a).mpr rfl

theorem LawfulCmp.gt_iff_lt {c : α → α → Ordering} (h : LawfulCmp c) (a b : α) :
    c a b = Ordering.gt ↔ c b a = Ordering.lt := by
  rw [h.symm b a]
  cases hab : c b a <;> decide

theorem LawfulCmp.le_trans {c : α → α → Ordering} (h : LawfulCmp c) (a b d : α)
    (hab : c a b ≠ Ordering.gt) (hbd : c b d ≠ Ordering.gt) : c a d ≠ Ordering.gt := by
  cases h1 : c a b with
  | gt => exact absurd h1 hab
  | eq => exact ((h.eq_iff a b).mp h1) ▸ hbd
  | lt =>
    cases h2 : c b d with
    | gt => exact absurd h2 hbd
    | eq => rw [← (h.eq_iff b d).mp h2]; exact fun hc => hab hc
    | lt => rw [h.lt_trans a b d h1 h2]; decide

theorem LawfulCmp.le_total {c : α → α → Ordering} (h : LawfulCmp c) (a b : α) :
    c a b ≠ Ordering.gt ∨ c b a ≠ Ordering.gt := by
  cases hab : c a b with
  | lt => exact Or.inl (by decide)
  | eq => exact Or.inl (by decide)
  | gt =>
    refine Or.inr ?_
    rw [h.symm a b, hab]
    decide

/-! Lawfulness of the concrete comparators. -/

theorem natCmp_eq_iff (a b : Nat) : natCmp a b = Ordering.eq ↔ a = b := by
  unfold natCmp; split_ifs <;> simp <;> omega

theorem natCmp_lt_iff (a b : Nat) : natCmp a b = Ordering.lt ↔ a < b := by
  unfold natCmp; split_ifs <;> simp <;> omega

theorem natCmp_gt_iff (a b : Nat) : natCmp a b = Ordering.gt ↔ b < a := by
  unfold natCmp; split_ifs <;> simp <;> omega

theorem lawful_natCmp : LawfulCmp natCmp := by
  refine ⟨natCmp_eq_iff, ?_, ?_⟩
  · intro a b
    unfold natCmp
    split_ifs <;> simp [Ordering.swap] <;> omega
  · intro a b d h1 h2
    rw [natCmp_lt_iff] at h1 h2 ⊢
    omega

theorem lawful_charCmp : LawfulCmp charCmp := by
  refine ⟨?_, ?_, ?_⟩
  · intro a b
    unfold charCmp
    rw [natCmp_eq_iff]
    exact ⟨fun h => Char.ext (UInt32.toNat.inj h), fun h => h ▸ rfl⟩
  · intro a b; exact lawful_natCmp.symm a.toNat b.toNat
  · intro a b d h1 h2; exact lawful_natCmp.lt_trans _ _ _ h1 h2

theorem lawful_listLex {c : α → α → Ordering} (h : LawfulCmp c) : LawfulCmp (listLex c) := by
  refine ⟨?_, ?_, ?_⟩
  · intro a
    induction a with
    | nil => intro b; cases b <;> simp [listLex]
    | cons x xs ih =>
      intro b
      cases b with
      | nil => simp [listLex]
      | cons y ys =>
        simp only [listLex, then_eq_eq, h.eq_iff, ih, List.cons.injEq]
  · intro a
    induction a with
    | nil => intro b; cases b <;> simp [listLex, Ordering.swap]
    | cons x xs ih =>
      intro b
      cases b with
      | nil => simp [listLex, Ordering.swap]
      | cons y ys =>
        simp only [listLex, swap_then]
        rw [h.symm x y, ih ys]
  · intro a
    induction a with
    | nil =>
      intro b d hab hbd
      cases b with
      | nil =>
        cases d <;> simp_all [listLex]
      | cons y ys =>
        cases d with
        | nil => simp_all [listLex]
        | cons z zs => simp [listLex]
    | cons x xs ih =>
      intro b d hab hbd
      cases b with
      | nil => simp_all [listLex]
      | cons y ys =>
        cases d with
        | nil => simp_all [listLex]
        | cons z zs =>
          simp only [listLex, then_eq_lt] at hab hbd ⊢
          rcases hab with hxy | ⟨hxy, hxsys⟩
          · rcases hbd with hyz | ⟨hyz, hyszs⟩
            · exact Or.inl (h.lt_trans x y z hxy hyz)
            · exact Or.inl (((h.eq_iff y z).mp hyz) ▸ hxy)
          · rcases hbd with hyz | ⟨hyz, hyszs⟩
            · exact Or.inl (((h.eq_iff x y).mp hxy) ▸ hyz)
            · refine Or.inr ⟨((h.eq_iff x y).mp hxy) ▸ hyz, ?_⟩
              exact ih ys zs hxsys hyszs

/-- Transport of lawfulness along an injective key function. -/
theorem LawfulCmp.comap {c : β → β → Ordering} (h : LawfulCmp c) (f : α → β)
    (hf : ∀ a b, f a = f b → a = b) : LawfulCmp (fun a b => c (f a) (f b)) := by
  refine ⟨?_, ?_, ?_⟩
  · intro a b
    rw [h.eq_iff]
    exact ⟨fun x => hf a b x, fun x => x ▸ rfl⟩
  · intro a b; exact h.symm (f a) (f b)
  · intro a b d h1 h2; exact h.lt_trans _ _ _ h1 h2

/-- Lexicographic product of two comparisons. -/
def prodCmp (c₁ : α → α → Ordering) (c₂ : β → β → Ordering) (x y : α × β) : Ordering :=
  (c₁ x.fst y.fst).then (c₂ x.snd y.snd)

theorem lawful_prodCmp {c₁ : α → α → Ordering} {c₂ : β → β → Ordering}
    (h₁ : LawfulCmp c₁) (h₂ : LawfulCmp c₂) : LawfulCmp (prodCmp c₁ c₂) := by
  refine ⟨?_, ?_, ?_⟩
  · intro x y
    unfold prodCmp
    rw [then_eq_eq, h₁.eq_iff, h₂.eq_iff, Prod.ext_iff]
  · intro x y
    unfold prodCmp
    rw [swap_then, h₁.symm, h₂.symm]
  · intro x y z h1 h2
    unfold prodCmp at h1 h2 ⊢
    rw [then_eq_lt] at h1 h2 ⊢
    rcases h1 with h1 | ⟨h1e, h1l⟩ <;> rcases h2 with h2 | ⟨h2e, h2l⟩
    · exact Or.inl (h₁.lt_trans _ _ _ h1 h2)
    · exact Or.inl (((h₁.eq_iff _ _).mp h2e) ▸ h1)
    · exact Or.inl (((h₁.eq_iff _ _).mp h1e).symm ▸ h2)
    · refine Or.inr ⟨?_, h₂.lt_trans _ _ _ h1l h2l⟩
      exact (h₁.eq_iff _ _).mpr (((h₁.eq_iff _ _).mp h1e).trans ((h₁.eq_iff _ _).mp h2e))

/-- Length-then-lexicographic order on digit runs, as a lawful comparison. -/
theorem lawful_lenLex :
    LawfulCmp (fun a b : List Char => (natCmp a.length b.length).then (listLex charCmp a b)) := by
  have h := (lawful_prodCmp lawful_natCmp (lawful_listLex lawful_charCmp)).comap
      (fun l : List Char => (l.length, l)) (fun a b hab => congrArg Prod.snd hab)
  exact h

/-- Computation rules for identCmp, one per digit-flag combination. -/
theorem identCmp_tt {a b : List Char} (ha : a.all Char.isDigit = true)
    (hb : b.all Char.isDigit = true) :
    identCmp a b = (natCmp a.length b.length).then (listLex charCmp a b) := by
  unfold identCmp; rw [ha, hb]

theorem identCmp_tf {a b : List Char} (ha : a.all Char.isDigit = true)
    (hb : b.all Char.isDigit = false) : identCmp a b = Ordering.lt := by
  unfold identCmp; rw [ha, hb]

theorem identCmp_ft {a b : List Char} (ha : a.all Char.isDigit = false)
    (hb : b.all Char.isDigit = true) : identCmp a b = Ordering.gt := by
  unfold identCmp; rw [ha, hb]

theorem identCmp_ff {a b : List Char} (ha : a.all Char.isDigit = false)
    (hb : b.all Char.isDigit = false) : identCmp a b = listLex charCmp a b := by
  unfold identCmp; rw [ha, hb]

theorem lawful_identCmp : LawfulCmp identCmp := by
  have hlex := lawful_listLex lawful_charCmp
  refine ⟨?_, ?_, ?_⟩
  · intro a b
    cases ha : a.all Char.isDigit <;> cases hb : b.all Char.isDigit
    · rw [identCmp_ff ha hb]; exact hlex.eq_iff a b
    · rw [identCmp_ft ha hb]
      constructor
      · intro h; exact absurd h (by decide)
      · intro h; subst h; rw [ha] at hb; exact absurd hb (by decide)
    · rw [identCmp_tf ha hb]
      constructor
      · intro h; exact absurd h (by decide)
      · intro h; subst h; rw [ha] at hb; exact absurd hb (by decide)
    · rw [identCmp_tt ha hb]; exact lawful_lenLex.eq_iff a b
  · intro a b
    cases ha : a.all Char.isDigit <;> cases hb : b.all Char.isDigit
    · rw [identCmp_ff ha hb, identCmp_ff hb ha]; exact hlex.symm a b
    · rw [identCmp_ft ha hb, identCmp_tf hb ha]; decide
    · rw [identCmp_tf ha hb, identCmp_ft hb ha]; decide
    · rw [identCmp_tt ha hb, identCmp_tt hb ha]; exact lawful_lenLex.symm a b
  · intro a b d h1 h2
    cases ha : a.all Char.isDigit <;> cases hb : b.all Char.isDigit
      <;> cases hd : d.all Char.isDigit
    · rw [identCmp_ff ha hb] at h1
      rw [identCmp_ff hb hd] at h2
      rw [identCmp_ff ha hd]
      exact hlex.lt_trans a b d h1 h2
    · rw [identCmp_ft hb hd] at h2; exact absurd h2 (by decide)
    · rw [identCmp_ft ha hb] at h1; exact absurd h1 (by decide)
    · rw [identCmp_ft ha hb] at h1; exact absurd h1 (by decide)
    · rw [identCmp_tf ha hd]
    · rw [identCmp_ft hb hd] at h2; exact absurd h2 (by decide)
    · rw [identCmp_tf ha hd]
    · rw [identCmp_tt ha hb] at h1
      rw [identCmp_tt hb hd] at h2
      rw [identCmp_tt ha hd]
      exact lawful_lenLex.lt_trans a b d h1 h2

/-! splitOnChar is injective (it has joinChar as a retraction). -/

theorem splitOnChar_ne_nil (sep : Char) : ∀ l : List Char, splitOnChar sep l ≠ [] := by
  intro l
  induction l with
  | nil => simp [splitOnChar]
  | cons c cs ih =>
    unfold splitOnChar
    split_ifs
    · simp
    · cases h : splitOnChar sep cs <;> simp

theorem joinChar_splitOnChar (sep : Char) : ∀ l : List Char,
    joinChar sep (splitOnChar sep l) = l := by
  intro l
  induction l with
  | nil => rfl
  | cons c cs ih =>
    unfold splitOnChar
    split_ifs with hc
    · cases h : splitOnChar sep cs with
      | nil => exact absurd h (splitOnChar_ne_nil sep cs)
      | cons p ps =>
        rw [h] at ih
        subst hc
        simp only [joinChar, List.nil_append, ih]
    · cases h : splitOnChar sep cs with
      | nil => exact absurd h (splitOnChar_ne_nil sep cs)
      | cons p ps =>
        rw [h] at ih
        cases ps with
        | nil =>
          simp only [joinChar] at ih ⊢
          rw [ih]
        | cons q qs =>
          simp only [joinChar, List.cons_append] at ih ⊢
          rw [ih]

theorem splitOnChar_injective (sep : Char) {a b : List Char}
    (h : splitOnChar sep a = splitOnChar sep b) : a = b := by
  have ha := joinChar_splitOnChar sep a
  rw [h, joinChar_splitOnChar sep b] at ha
  exact ha.symm

/-- Emptiness of the character data determines equality with the empty
string. -/
theorem strEmpty_iff (s : String) : s.data.isEmpty = true ↔ s = "" := by
  rw [List.isEmpty_iff]
  constructor
  · intro h; exact String.ext h
  · intro h; rw [h]

theorem lawful_preCmp : LawfulCmp preCmp := by
  have hid := lawful_listLex lawful_identCmp
  refine ⟨?_, ?_, ?_⟩
  · intro a b
    unfold preCmp
    split_ifs with ha hb hb
    · rw [strEmpty_iff] at ha hb
      subst ha; subst hb; simp
    · constructor
      · intro h; exact absurd h (by decide)
      · intro h; subst h; exact absurd ha hb
    · constructor
      · intro h; exact absurd h (by decide)
      · intro h; subst h; exact absurd hb ha
    · rw [hid.eq_iff]
      constructor
      · intro h; exact String.ext (splitOnChar_injective '.' h)
      · intro h; rw [h]
  · intro a b
    unfold preCmp
    split_ifs <;> first | decide | exact hid.symm _ _
  · intro a b d h1 h2
    unfold preCmp at h1 h2 ⊢
    split_ifs at h1 h2 ⊢ <;>
      first
        | rfl
        | exact absurd h1 (by decide)
        | exact absurd h2 (by decide)
        | exact hid.lt_trans _ _ _ h1 h2

theorem lawful_buildCmp : LawfulCmp buildCmp := by
  have hid := lawful_listLex lawful_identCmp
  refine ⟨?_, ?_, ?_⟩
  · intro a b
    unfold buildCmp
    split_ifs with ha hb hb
    · rw [strEmpty_iff] at ha hb
      subst ha; subst hb; simp
    · constructor
      · intro h; exact absurd h (by decide)
      · intro h; subst h; exact absurd ha hb
    · constructor
      · intro h; exact absurd h (by decide)
      · intro h; subst h; exact absurd hb ha
    · rw [hid.eq_iff]
      constructor
      · intro h; exact String.ext (splitOnChar_injective '.' h)
      · intro h; rw [h]
  · intro a b
    unfold buildCmp
    split_ifs <;> first | decide | exact hid.symm _ _
  · intro a b d h1 h2
    unfold buildCmp at h1 h2 ⊢
    split_ifs at h1 h2 ⊢ <;>
      first
        | rfl
        | exact absurd h1 (by decide)
        | exact absurd h2 (by decide)
        | exact hid.lt_trans _ _ _ h1 h2

/-- The version ordering is the lexicographic product of its field
comparisons under the obvious (injective) field tuple. -/
theorem lawful_versionCmp : LawfulCmp versionCmp := by
  have h := (lawful_prodCmp lawful_natCmp (lawful_prodCmp lawful_natCmp
      (lawful_prodCmp lawful_natCmp (lawful_prodCmp lawful_preCmp lawful_buildCmp)))).comap
      (fun v : SemVerVersion => (v.major, (v.minor, (v.patch, (v.pre, v.build)))))
      ?_
  · exact h
  · intro a b hab
    cases a; cases b
    simp only [Prod.mk.injEq] at hab
    obtain ⟨h1, h2, h3, h4, h5⟩ := hab
    subst h1; subst h2; subst h3; subst h4; subst h5
    rfl

/-! Release-level order facts. -/

theorem releaseCmp_eq_iff (a b : Release) :
    releaseCmp a b = Ordering.eq ↔ a.version = b.version :=
  lawful_versionCmp.eq_iff a.version b.version

theorem releaseLE_iff (a b : Release) :
    releaseLE a b = true ↔ releaseCmp a b ≠ Ordering.gt := by
  unfold releaseLE
  cases releaseCmp a b <;> simp

theorem releaseLE_refl (a : Release) : releaseLE a a = true := by
  rw [releaseLE_iff]
  unfold releaseCmp
  rw [lawful_versionCmp.refl]
  decide

theorem releaseLE_total (a b : Release) : releaseLE a b = true ∨ releaseLE b a = true := by
  rw [releaseLE_iff, releaseLE_iff]
  exact lawful_versionCmp.le_total a.version b.version

theorem releaseLE_trans (a b d : Release) (h1 : releaseLE a b = true)
    (h2 : releaseLE b d = true) : releaseLE a d = true := by
  rw [releaseLE_iff] at h1 h2 ⊢
  exact lawful_versionCmp.le_trans _ _ _ h1 h2

/-- Boolean version equality agrees with propositional equality. -/
theorem svBeq_iff (a b : SemVerVersion) : svBeq a b = true ↔ a = b := by
  unfold svBeq
  cases a; cases b
  simp only [Bool.and_eq_true, beq_iff_eq, SemVerVersion.mk.injEq]
  tauto

/-! Facts about the stable insertion sort. -/

theorem mem_insertOrdered {le : α → α → Bool} {a x : α} : ∀ {l : List α},
    x ∈ insertOrdered le a l ↔ x = a ∨ x ∈ l := by
  intro l
  induction l with
  | nil => simp [insertOrdered]
  | cons b bs ih =>
    unfold insertOrdered
    split_ifs with h
    · simp [List.mem_cons]
    · simp only [List.mem_cons, ih]
      tauto

theorem insertOrdered_ne_nil (le : α → α → Bool) (a : α) : ∀ l : List α,
    insertOrdered le a l ≠ [] := by
  intro l
  cases l with
  | nil => simp [insertOrdered]
  | cons b bs =>
    unfold insertOrdered
    split_ifs <;> simp

theorem perm_insertOrdered (le : α → α → Bool) (a : α) : ∀ l : List α,
    List.Perm (insertOrdered le a l) (a :: l) := by
  intro l
  induction l with
  | nil => exact List.Perm.refl _
  | cons b bs ih =>
    unfold insertOrdered
    split_ifs with h
    · exact List.Perm.refl _
    · exact (ih.cons b).trans (List.Perm.swap a b bs)

theorem perm_stableSort (le : α → α → Bool) : ∀ l : List α,
    List.Perm (stableSort le l) l := by
  intro l
  induction l with
  | nil => exact List.Perm.refl _
  | cons a l ih =>
    exact (perm_insertOrdered le a (stableSort le l)).trans (ih.cons a)

theorem mem_stableSort {le : α → α → Bool} {x : α} {l : List α} :
    x ∈ stableSort le l ↔ x ∈ l :=
  (perm_stableSort le l).mem_iff

theorem pairwise_insertOrdered {le : α → α → Bool}
    (htot : ∀ a b, le a b = true ∨ le b a = true)
    (htrans : ∀ a b d, le a b = true → le b d = true → le a d = true)
    (a : α) : ∀ l : List α, l.Pairwise (fun x y => le x y = true) →
      (insertOrdered le a l).Pairwise (fun x y => le x y = true) := by
  intro l
  induction l with
  | nil => intro _; simp [insertOrdered]
  | cons b bs ih =>
    intro hp
    rw [List.pairwise_cons] at hp
    obtain ⟨hb, hbs⟩ := hp
    unfold insertOrdered
    split_ifs with hab
    · rw [List.pairwise_cons]
      refine ⟨?_, ?_⟩
      · intro x hx
        rcases List.mem_cons.mp hx with rfl | hx
        · exact hab
        · exact htrans a b x hab (hb x hx)
      · rw [List.pairwise_cons]
        exact ⟨hb, hbs⟩
    · rw [List.pairwise_cons]
      refine ⟨?_, ih hbs⟩
      intro x hx
      rcases mem_insertOrdered.mp hx with rfl | hx
      · rcases htot x b with h | h
        · exact absurd h hab
        · exact h
      · exact hb x hx

theorem pairwise_stableSort {le : α → α → Bool}
    (htot : ∀ a b, le a b = true ∨ le b a = true)
    (htrans : ∀ a b d, le a b = true → le b d = true → le a d = true) :
    ∀ l : List α, (stableSort le l).Pairwise (fun x y => le x y = true) := by
  intro l
  induction l with
  | nil => simp [stableSort]
  | cons a l ih => exact pairwise_insertOrdered htot htrans a _ ih

theorem pairwise_getLast?_le {le : α → α → Bool} (hrefl : ∀ a, le a a = true) :
    ∀ (l : List α) (s : α), l.Pairwise (fun x y => le x y = true) →
      l.getLast? = some s → ∀ x ∈ l, le x s = true := by
  intro l
  induction l with
  | nil => intro s _ h; cases h
  | cons b bs ih =>
    intro s hp hlast x hx
    cases bs with
    | nil =>
      rw [List.getLast?_singleton] at hlast
      injection hlast with hbs
      subst hbs
      rcases List.mem_cons.mp hx with rfl | hx
      · exact hrefl x
      · cases hx
    | cons c cs =>
      rw [List.getLast?_cons_cons] at hlast
      rw [List.pairwise_cons] at hp
      rcases List.mem_cons.mp hx with rfl | hx
      · exact hp.1 s (List.mem_of_mem_getLast? (Option.mem_def.mpr hlast))
      · exact ih s hp.2 hlast x hx

theorem getLast?_cons_of_ne_nil {b : α} : ∀ {l : List α}, l ≠ [] →
    (b :: l).getLast? = l.getLast? := by
  intro l h
  cases l with
  | nil => exact absurd rfl h
  | cons c cs => exact List.getLast?_cons_cons

theorem getLast?_insertOrdered (le : α → α → Bool) (a : α) : ∀ l : List α,
    (insertOrdered le a l).getLast? =
      if l.all (fun b => !le a b) then some a else l.getLast? := by
  intro l
  induction l with
  | nil => simp [insertOrdered]
  | cons b bs ih =>
    unfold insertOrdered
    split_ifs with hab hall hall
    · rw [List.all_cons, hab] at hall
      simp at hall
    · exact List.getLast?_cons_cons
    · have hbs : bs.all (fun x => !le a x) = true := by
        rw [List.all_cons] at hall
        exact (Bool.and_eq_true _ _).mp hall |>.2
      rw [getLast?_cons_of_ne_nil (insertOrdered_ne_nil le a bs)]
      rw [ih, if_pos hbs]
    · have habF : le a b = false := Bool.not_eq_true _ ▸ hab
      cases hbs : bs.all (fun x => !le a x) with
      | true =>
        exact absurd (by simp only [List.all_cons, habF, hbs]; decide) hall
      | false =>
        have hbsne : bs ≠ [] := by
          intro hnil
          rw [hnil] at hbs
          cases hbs
        rw [getLast?_cons_of_ne_nil (insertOrdered_ne_nil le a bs)]
        rw [ih, if_neg ?_, getLast?_cons_of_ne_nil hbsne]
        rw [hbs]
        decide

/-- The last element of the stable sort is the last occurrence, in input
order, among the elements equivalent to it: stability on the maximal
class. -/
theorem stableSort_getLast?_filter (le : α → α → Bool) (hrefl : ∀ a, le a a = true) :
    ∀ (l : List α) (s : α), (stableSort le l).getLast? = some s →
      (l.filter (fun x => le x s && le s x)).getLast? = some s := by
  intro l
  induction l with
  | nil => intro s h; cases h
  | cons a l ih =>
    intro s h
    unfold stableSort at h
    rw [getLast?_insertOrdered] at h
    split_ifs at h with hall
    · injection h with h
      subst h
      rw [List.filter_cons, if_pos (by rw [hrefl]; rfl)]
      have hnil : l.filter (fun x => le x a && le a x) = [] := by
        rw [List.filter_eq_nil_iff]
        intro x hx
        have hxs : x ∈ stableSort le l := mem_stableSort.mpr hx
        have hax := List.all_eq_true.mp hall x hxs
        simp only [Bool.not_eq_eq_eq_not, Bool.not_true] at hax
        simp [hax]
      rw [hnil]
      rfl
    · have hs := ih s h
      rw [List.filter_cons]
      split_ifs with hpa
      · have hne : l.filter (fun x => le x s && le s x) ≠ [] := by
          intro hnil
          rw [hnil] at hs
          cases hs
        rw [getLast?_cons_of_ne_nil hne]
        exact hs
      · exact hs

/-! Facts about the latest-version selector. -/

theorem eq_then (o : Ordering) : Ordering.eq.then o = o := rfl

theorem gt_then (o : Ordering) : Ordering.gt.then o = Ordering.gt := rfl

theorem mem_latest_versions {vs : List Release} {s : Release} :
    s ∈ latest_versions vs ↔ ∃ m, m ∈ versionRangeList ∧
      (stableSort releaseLE (vs.filter (fun r => r.version.minor == m))).getLast? = some s := by
  unfold latest_versions
  rw [List.mem_filterMap]

theorem latest_selected_minor {vs : List Release} {m : Nat} {s : Release}
    (h : (stableSort releaseLE (vs.filter (fun r => r.version.minor == m))).getLast? = some s) :
    s ∈ vs ∧ s.version.minor = m := by
  have hmem : s ∈ stableSort releaseLE (vs.filter (fun r => r.version.minor == m)) :=
    List.mem_of_mem_getLast? (Option.mem_def.mpr h)
  have hf : s ∈ vs.filter (fun r => r.version.minor == m) := mem_stableSort.mp hmem
  rw [List.mem_filter] at hf
  refine ⟨hf.1, ?_⟩
  have := hf.2
  rwa [beq_iff_eq] at this

/-- The regular-release predicate, spelled out field by field. -/
theorem is_regular_release_iff (v : SemVerVersion) :
    is_regular_release v = true ↔
      (v.major = 3 ∧ v.minor < 99 ∧ v.patch < 99 ∧ v.pre = "") := by
  unfold is_regular_release versionRangeContains VERSION_RANGE_START VERSION_RANGE_END
  rw [Bool.and_eq_true, Bool.and_eq_true, Bool.and_eq_true]
  simp only [beq_iff_eq, Bool.and_eq_true, decide_eq_true_eq, strEmpty_iff]
  constructor
  · intro h
    exact ⟨h.1.1.1, h.1.1.2.2, h.1.2.2, h.2⟩
  · intro h
    exact ⟨⟨⟨h.1, Nat.zero_le _, h.2.1⟩, Nat.zero_le _, h.2.2.1⟩, h.2.2.2⟩

theorem valid_fields {r : Release} (h : r.valid = true) :
    r.version.major = 3 ∧ r.version.minor < 99 ∧ r.version.patch < 99 ∧ r.version.pre = "" := by
  unfold Release.valid at h
  rw [Bool.and_eq_true] at h
  exact (is_regular_release_iff r.version).mp h.1

theorem releaseLE_patch_le {q s : Release} (hle : releaseLE q s = true)
    (hmaj : q.version.major = s.version.major) (hmin : q.version.minor = s.version.minor) :
    q.version.patch ≤ s.version.patch := by
  rw [releaseLE_iff] at hle
  unfold releaseCmp versionCmp at hle
  rw [(natCmp_eq_iff _ _).mpr hmaj, eq_then, (natCmp_eq_iff _ _).mpr hmin, eq_then] at hle
  by_contra hlt
  rw [Nat.not_le] at hlt
  rw [(natCmp_gt_iff _ _).mpr hlt, gt_then] at hle
  exact hle rfl

/-- Two releases are mutually releaseLE exactly when their versions are
structurally equal. -/
theorem releaseEquiv_iff (x s : Release) :
    (releaseLE x s && releaseLE s x) = svBeq x.version s.version := by
  have hsymm : releaseCmp s x = (releaseCmp x s).swap := lawful_versionCmp.symm x.version s.version
  cases hb : svBeq x.version s.version with
  | true =>
    have hv : x.version = s.version := (svBeq_iff _ _).mp hb
    have hcmp : releaseCmp x s = Ordering.eq := (releaseCmp_eq_iff x s).mpr hv
    unfold releaseLE
    rw [hsymm, hcmp]
    rfl
  | false =>
    have hv : ¬ x.version = s.version := by
      intro he
      rw [(svBeq_iff _ _).mpr he] at hb
      cases hb
    cases hcmp : releaseCmp x s with
    | eq => exact absurd ((releaseCmp_eq_iff x s).mp hcmp) hv
    | lt =>
      unfold releaseLE
      rw [hsymm, hcmp]
      rfl
    | gt =>
      unfold releaseLE
      rw [hsymm, hcmp]
      rfl

theorem parse_rows_never_err (hdr : List String) : ∀ rows : List (List String),
    parse_rows hdr rows = ParseOutcome.panicked ∨
      ∃ rs, parse_rows hdr rows = ParseOutcome.ok rs := by
  intro rows
  induction rows with
  | nil => exact Or.inr ⟨[], rfl⟩
  | cons row rest ih =>
    unfold parse_rows
    cases hrow : parseRow hdr row with
    | panicked => exact Or.inl rfl
    | value v =>
      cases v with
      | none => exact ih
      | some item =>
        rcases ih with hp | ⟨rs, hok⟩
        · rw [hp]
          exact Or.inl rfl
        · rw [hok]
          exact Or.inr ⟨_, rfl⟩

theorem anySuffixMatch_decomp : ∀ l : List Char, anySuffixMatch l = true →
    ∃ p s, l = p ++ s ∧ matchHere s = true := by
  intro l
  induction l with
  | nil => intro h; exact ⟨[], [], rfl, h⟩
  | cons c cs ih =>
    intro h
    unfold anySuffixMatch at h
    cases hm1 : matchHere (c :: cs) with
    | true => exact ⟨[], c :: cs, rfl, hm1⟩
    | false =>
      rw [hm1] at h
      simp only [Bool.false_or] at h
      obtain ⟨p, s, hps, hm⟩ := ih h
      exact ⟨c :: p, s, by rw [hps]; rfl, hm⟩

theorem matchHere_decomp {s : List Char} (h : matchHere s = true) :
    ∃ mid, s = ("https://").data ++ mid ++ (".tar.gz").data ∧ noNewline mid = true := by
  unfold matchHere at h
  rw [Bool.and_eq_true, Bool.and_eq_true, Bool.and_eq_true] at h
  obtain ⟨⟨⟨hpre, hsuf⟩, hlen⟩, hnl⟩ := h
  rw [List.isPrefixOf_iff_prefix] at hpre
  rw [List.isSuffixOf_iff_suffix] at hsuf
  rw [decide_eq_true_eq] at hlen
  obtain ⟨q, hq⟩ := hsuf
  have hqlen : q.length + 7 = s.length := by
    have h7 : (".tar.gz").data.length = 7 := rfl
    rw [← hq, List.length_append, h7]
  have hHq : ("https://").data <+: q := by
    apply List.prefix_of_prefix_length_le hpre ⟨(".tar.gz").data, hq⟩
    have h8 : ("https://").data.length = 8 := rfl
    omega
  obtain ⟨mid, hmid⟩ := hHq
  refine ⟨mid, ?_, ?_⟩
  · rw [← hq, ← hmid, List.append_assoc]
  · have hdrop : s.drop 8 = mid ++ (".tar.gz").data := by
      rw [← hq, ← hmid, List.append_assoc]
      exact List.drop_left' rfl
    have hmidlen : s.length - 15 = mid.length := by
      have h1 : s.length = 8 + mid.length + 7 := by
        have h2 : ("https://").data.length = 8 := rfl
        have h3 : (".tar.gz").data.length = 7 := rfl
        rw [← hq, ← hmid, List.length_append, List.length_append, h2, h3]
      omega
    have htake : (mid ++ (".tar.gz").data).take (s.length - 15) = mid := by
      rw [hmidlen]
      exact List.take_left mid _
    rw [hdrop, htake] at hnl
    exact hnl

/-! Concrete fixtures used by the witnesses and counterexamples. -/

/-- A well-formed artifact URL of the real feed. -/
def goodUrl : String := "https://cache.ruby-lang.org/pub/ruby/3.1/ruby-3.1.1.tar.gz"

/-- A valid release record. -/
def goodRel : Release := Release.mk (SemVerVersion.mk 3 1 1 "" "") goodUrl "abc123"

/-- A second valid record on the same minor line with a higher patch. -/
def goodRel2 : Release := Release.mk (SemVerVersion.mk 3 1 2 "" "") goodUrl "def456"

/-- A record that differs from goodRel only in url and sha256. -/
def otherRel : Release :=
  Release.mk (SemVerVersion.mk 3 1 1 "" "") "https://mirror.example/ruby-3.1.1.tar.gz" "zzz999"

/-- A prerelease record with otherwise perfect fields. -/
def preRel : Release := Release.mk (SemVerVersion.mk 3 2 0 "rc2" "") goodUrl "sha"

/-- An insecure-scheme URL that embeds an https URL ending in .tar.gz. -/
def sneakyUrl : String := "http://evil.example/?u=https://cache.ruby-lang.org/ruby-3.1.1.tar.gz"

/-- A record whose URL scheme is http, not https. -/
def sneakyRel : Release := Release.mk (SemVerVersion.mk 3 1 1 "" "") sneakyUrl "sha"

/-- Two valid records with identical versions but different payloads. -/
def dupRel1 : Release := Release.mk (SemVerVersion.mk 3 2 0 "" "") goodUrl "first"

/-- Second of the two identical-version records. -/
def dupRel2 : Release :=
  Release.mk (SemVerVersion.mk 3 2 0 "" "") "https://mirror.example/ruby-3.2.0.tar.gz" "second"

/-- The header of the test feeds. -/
def hdr0 : List String := ["name", "url", "sha256"]

/-- A row whose name has the expected prefix but an unparsable remainder. -/
def rowBad : List String := ["ruby-junk", "https://x/a.tar.gz", "zz"]

/-- A fully well-formed row. -/
def rowGood : List String := ["ruby-3.1.1", "https://x/ruby-3.1.1.tar.gz", "aa"]

/-! The claims. -/

/-- C1 (counterexample): a row whose version-name field does not match the
expected shape is not always silently skipped — a name field lacking the
literal prefix makes strip_prefix return None and the .unwrap() panic,
aborting the whole parse instead of continuing. -/
theorem unprefixed_name_aborts :
    parse_data ("name\turl\tsha256\n3.1.1\thttps://x/ruby-3.1.1.tar.gz\tabc")
      = ParseOutcome.panicked := by
  decide

/-- C1 (amended): a row whose version-name field carries the expected
prefix but whose remainder cannot be parsed as a semantic version is
silently skipped — the parse continues and produces exactly the result it
would produce without that row. -/
theorem prefixed_malformed_row_skipped (hdr : List String) (xs ys : List (List String))
    (row : List String) (nv : String)
    (hname : lookupField hdr row ("name") = some nv)
    (hparse : parse_semver_version nv = PanicOr.value none) :
    parse_rows hdr (xs ++ row :: ys) = parse_rows hdr (xs ++ ys) := by
  have hrow : parseRow hdr row = PanicOr.value none := by
    unfold parseRow
    split_ifs with hlen
    · rfl
    · rw [hname]
      simp only [hparse]
  induction xs with
  | nil =>
    show parse_rows hdr (row :: ys) = parse_rows hdr ys
    simp only [parse_rows, hrow]
  | cons x xs ih =>
    show parse_rows hdr (x :: (xs ++ row :: ys)) = parse_rows hdr (x :: (xs ++ ys))
    simp only [parse_rows, ih]

/-- Witness for the amended C1 at a concrete feed: the malformed row
ruby-junk is dropped and parsing continues over the remaining rows. -/
theorem prefixed_malformed_row_skipped_witness :
    lookupField hdr0 rowBad ("name") = some ("ruby-junk") ∧
      parse_semver_version ("ruby-junk") = PanicOr.value none ∧
      parse_rows hdr0 ([] ++ rowBad :: [rowGood]) = parse_rows hdr0 ([] ++ [rowGood]) :=
  ⟨by decide, by decide,
    prefixed_malformed_row_skipped hdr0 [] [rowGood] rowBad ("ruby-junk")
      (by decide) (by decide)⟩

/-- C2 (counterexample): completely empty input and input whose header
lacks every required column both yield Ok with an empty sequence, not a
ParseError. -/
theorem structural_failures_yield_ok :
    parse_data ("") = ParseOutcome.ok [] ∧
      parse_data ("foo\tbar\nx\ty") = ParseOutcome.ok [] :=
  ⟨by decide, by decide⟩

/-- C2 (amended): parse_data never returns its error case at all — every
input yields either Ok (with rows that failed to deserialize simply
skipped) or, when a name field lacks the fixed prefix, a panic. -/
theorem parse_data_never_err (input : String) :
    parse_data input = ParseOutcome.panicked ∨
      ∃ rs, parse_data input = ParseOutcome.ok rs := by
  unfold parse_data
  cases lines input with
  | nil => exact Or.inr ⟨[], rfl⟩
  | cons hdr rows => exact parse_rows_never_err _ _

/-- C3 (counterexample): a record whose URL has the insecure http scheme
is accepted by the validity predicate when the URL embeds an https
substring ending in .tar.gz, because Regex::is_match is not anchored at
the start of the haystack. -/
theorem insecure_scheme_url_accepted :
    sneakyRel.valid = true ∧ sneakyRel.url.data.take 7 = ("http://").data :=
  ⟨by decide, by decide⟩

/-- A string of the matched shape — the scheme literal, newline-free
filler, the archive suffix — satisfies matchHere at that position. -/
theorem matchHere_of_shape {mid : List Char} (hnl : noNewline mid = true) :
    matchHere (("https://").data ++ mid ++ (".tar.gz").data) = true := by
  have h8 : ("https://").data.length = 8 := rfl
  have h7 : (".tar.gz").data.length = 7 := rfl
  unfold matchHere
  rw [Bool.and_eq_true, Bool.and_eq_true, Bool.and_eq_true]
  refine ⟨⟨⟨?_, ?_⟩, ?_⟩, ?_⟩
  · rw [List.isPrefixOf_iff_prefix]
    exact ⟨mid ++ (".tar.gz").data, (List.append_assoc _ _ _).symm⟩
  · rw [List.isSuffixOf_iff_suffix]
    exact ⟨("https://").data ++ mid, rfl⟩
  · rw [decide_eq_true_eq, List.length_append, List.length_append, h8, h7]
    omega
  · rw [List.append_assoc, List.drop_left' h8]
    have hlen : (("https://").data ++ (mid ++ (".tar.gz").data)).length - 15 = mid.length := by
      rw [List.length_append, List.length_append, h8, h7]
      omega
    rw [hlen, List.take_left mid _]
    exact hnl

/-- A match at any position makes the whole haystack match. -/
theorem anySuffixMatch_of_shape : ∀ (p s : List Char), matchHere s = true →
    anySuffixMatch (p ++ s) = true := by
  intro p
  induction p with
  | nil =>
    intro s hm
    cases s with
    | nil => exact hm
    | cons c cs =>
      show (matchHere (c :: cs) || anySuffixMatch cs) = true
      rw [hm]
      rfl
  | cons c p ih =>
    intro s hm
    show (matchHere (c :: (p ++ s)) || anySuffixMatch (p ++ s)) = true
    rw [ih s hm]
    simp

/-- C3 (amended): for every record, the URL part of the validity
predicate holds exactly when some newline-free suffix of the URL starts
with https:// and ends, at the very end of the URL, with .tar.gz; so the
URL must end with the literal suffix .tar.gz, but its own scheme need not
be the secure one — an insecure-scheme URL passes whenever a substring of
it looks like an https URL ending in .tar.gz. -/
theorem valid_url_shape (r : Release) :
    has_tar_gz_url r.url = true ↔
      ∃ p mid, r.url.data = p ++ ("https://").data ++ mid ++ (".tar.gz").data
        ∧ noNewline mid = true := by
  constructor
  · intro h
    unfold has_tar_gz_url at h
    obtain ⟨p, s, hps, hm⟩ := anySuffixMatch_decomp _ h
    obtain ⟨mid, hsm, hnl⟩ := matchHere_decomp hm
    refine ⟨p, mid, ?_, hnl⟩
    rw [hps, hsm]
    simp [List.append_assoc]
  · rintro ⟨p, mid, hshape, hnl⟩
    unfold has_tar_gz_url
    rw [hshape]
    have hall := anySuffixMatch_of_shape p _ (matchHere_of_shape hnl)
    simpa [List.append_assoc] using hall

/-- C4: the regular-release part of validity holds exactly when the major
version is 3, minor and patch lie in the configured range below 99, and
the prerelease component is empty. -/
theorem regular_release_check (v : SemVerVersion) :
    is_regular_release v = true ↔
      (v.major = 3 ∧ v.minor < 99 ∧ v.patch < 99 ∧ v.pre = "") :=
  is_regular_release_iff v

/-- C5: a record with a non-empty prerelease component is never valid,
whatever its numeric fields, URL and checksum are. -/
theorem prerelease_always_invalid (r : Release) (h : r.version.pre ≠ "") :
    r.valid = false := by
  unfold Release.valid
  have hreg : is_regular_release r.version = false := by
    cases hx : is_regular_release r.version with
    | false => rfl
    | true => exact absurd ((is_regular_release_iff _).mp hx).2.2.2 h
  rw [hreg]
  rfl

/-- Witness for C5 at a concrete prerelease record with a perfect URL. -/
theorem prerelease_always_invalid_witness :
    preRel.version.pre ≠ "" ∧ preRel.valid = false :=
  ⟨by decide, prerelease_always_invalid preRel (by decide)⟩

/-- C6: over valid input records, for every minor version present in the
input the selector picks a record of that minor line whose patch number is
at least the patch number of every input record sharing that minor. -/
theorem latest_versions_patch_maximal (vs : List Release)
    (hval : ∀ r ∈ vs, r.valid = true) :
    ∀ r ∈ vs, ∃ s ∈ latest_versions vs, s.version.minor = r.version.minor ∧
      ∀ q ∈ vs, q.version.minor = s.version.minor →
        q.version.patch ≤ s.version.patch := by
  intro r hr
  have hminlt : r.version.minor < 99 := (valid_fields (hval r hr)).2.1
  have hrg : r ∈ vs.filter (fun x => x.version.minor == r.version.minor) := by
    rw [List.mem_filter]
    exact ⟨hr, by rw [beq_iff_eq]⟩
  have hrs : r ∈ stableSort releaseLE
      (vs.filter (fun x => x.version.minor == r.version.minor)) :=
    mem_stableSort.mpr hrg
  cases hlast : (stableSort releaseLE
      (vs.filter (fun x => x.version.minor == r.version.minor))).getLast? with
  | none =>
    rw [List.getLast?_eq_none_iff] at hlast
    rw [hlast] at hrs
    cases hrs
  | some s =>
    have hsel := latest_selected_minor hlast
    refine ⟨s, ?_, hsel.2, ?_⟩
    · rw [mem_latest_versions]
      refine ⟨r.version.minor, ?_, hlast⟩
      unfold versionRangeList VERSION_RANGE_END
      exact List.mem_range.mpr hminlt
    · intro q hq hqm
      have hqm' : q.version.minor = r.version.minor := by rw [hqm, hsel.2]
      have hqg : q ∈ vs.filter (fun x => x.version.minor == r.version.minor) := by
        rw [List.mem_filter]
        exact ⟨hq, by rw [beq_iff_eq]; exact hqm'⟩
      have hqs : q ∈ stableSort releaseLE
          (vs.filter (fun x => x.version.minor == r.version.minor)) :=
        mem_stableSort.mpr hqg
      have hle := pairwise_getLast?_le releaseLE_refl _ s
        (pairwise_stableSort releaseLE_total releaseLE_trans _) hlast q hqs
      have hqmaj := (valid_fields (hval q hq)).1
      have hsmaj := (valid_fields (hval s hsel.1)).1
      exact releaseLE_patch_le hle (by rw [hqmaj, hsmaj]) hqm

/-- Witness for C6 on a two-record minor line: the selector returns the
patch-2 record and both input patches are bounded by it. -/
theorem latest_versions_patch_maximal_witness :
    (∀ r ∈ [goodRel, goodRel2], r.valid = true) ∧
      ∃ s ∈ latest_versions [goodRel, goodRel2],
        s.version.minor = goodRel.version.minor ∧
          ∀ q ∈ [goodRel, goodRel2], q.version.minor = s.version.minor →
            q.version.patch ≤ s.version.patch :=
  ⟨by decide,
    latest_versions_patch_maximal [goodRel, goodRel2] (by decide) goodRel (by decide)⟩

/-- C7: for any input whatsoever, the selector's output is strictly
ascending in minor version, so it never contains two records with the same
minor. -/
theorem latest_versions_minors_ascending (vs : List Release) :
    (latest_versions vs).Pairwise (fun a b => a.version.minor < b.version.minor) := by
  unfold latest_versions versionRangeList
  rw [List.pairwise_filterMap]
  refine List.Pairwise.imp ?_ (List.pairwise_lt_range VERSION_RANGE_END)
  intro m₁ m₂ hlt s₁ hs₁ s₂ hs₂
  have h₁ := latest_selected_minor (Option.mem_def.mp hs₁)
  have h₂ := latest_selected_minor (Option.mem_def.mp hs₂)
  rw [h₁.2, h₂.2]
  exact hlt

/-- C8: over valid inputs, every selected record is the latest occurrence,
in input order, among the input records carrying its exact version
(last-one-wins on exact ties). -/
theorem latest_versions_last_wins (vs : List Release)
    (hval : ∀ r ∈ vs, r.valid = true) :
    ∀ s ∈ latest_versions vs,
      (vs.filter (fun r => r.version == s.version)).getLast? = some s := by
  intro s hs
  rw [mem_latest_versions] at hs
  obtain ⟨m, hm, hlast⟩ := hs
  have hsel := latest_selected_minor hlast
  have hstab := stableSort_getLast?_filter releaseLE releaseLE_refl _ s hlast
  have hpt : ∀ a : Release,
      ((releaseLE a s && releaseLE s a) && (a.version.minor == m))
        = svBeq a.version s.version := by
    intro a
    rw [releaseEquiv_iff a s]
    cases hb : svBeq a.version s.version with
    | false => rw [Bool.false_and]
    | true =>
      have hv := (svBeq_iff _ _).mp hb
      have hmm : a.version.minor = m := by rw [hv, hsel.2]
      rw [Bool.true_and, beq_iff_eq]
      simp [hmm]
  have h1 : vs.filter (fun r => r.version == s.version)
      = (vs.filter (fun r => r.version.minor == m)).filter
          (fun x => releaseLE x s && releaseLE s x) := by
    rw [List.filter_filter]
    exact List.filter_congr (fun x _ => (hpt x).symm)
  rw [h1]
  exact hstab

/-- Witness for C8: of two valid records with the same version, the second
one in input order is selected. -/
theorem latest_versions_last_wins_witness :
    (∀ r ∈ [dupRel1, dupRel2], r.valid = true) ∧
      ([dupRel1, dupRel2].filter
          (fun r => r.version == dupRel2.version)).getLast? = some dupRel2 :=
  ⟨by decide,
    latest_versions_last_wins [dupRel1, dupRel2] (by decide) dupRel2 (by decide)⟩

/-- C9: every record the selector outputs is literally one of its input
records, carried over unchanged. -/
theorem latest_versions_subset (vs : List Release) :
    ∀ s ∈ latest_versions vs, s ∈ vs := by
  intro s hs
  rw [mem_latest_versions] at hs
  obtain ⟨m, _, h⟩ := hs
  exact (latest_selected_minor h).1

/-- Witness for C9 at a concrete input. -/
theorem latest_versions_subset_witness :
    goodRel ∈ latest_versions [goodRel] ∧ goodRel ∈ [goodRel] :=
  ⟨by decide, latest_versions_subset [goodRel] goodRel (by decide)⟩

/-- C10: equality and ordering of releases are determined by the version
field alone — two records with equal versions are both equal under the
equality test and tied under the comparison, whatever their url and
sha256 fields. -/
theorem release_eq_by_version (a b : Release) (h : a.version = b.version) :
    releaseBEq a b = true ∧ releaseCmp a b = Ordering.eq := by
  constructor
  · show svBeq a.version b.version = true
    exact (svBeq_iff _ _).mpr h
  · exact (releaseCmp_eq_iff a b).mpr h

/-- Witness for C10 on two records that differ in url and sha256 but share
a version. -/
theorem release_eq_by_version_witness :
    goodRel.version = otherRel.version ∧ goodRel.url ≠ otherRel.url ∧
      goodRel.sha256 ≠ otherRel.sha256 ∧
      (releaseBEq goodRel otherRel = true ∧
        releaseCmp goodRel otherRel = Ordering.eq) :=
  ⟨by decide, by decide, by decide, release_eq_by_version goodRel otherRel (by decide)⟩

end RubyCheck
